import Mathlib

/-!
Verification development for `dask_groupby/xarray.py`.

The file shallowly embeds the functions of the source module:
`_get_optimal_chunks_for_groups`, the multi-variable dask guard and the
single-key expected-groups branch of `xarray_reduce`,
`rechunk_to_group_boundaries`, the label construction of `resample_reduce`,
and (modelled from the spec, since `core.factorize_` / `core.reindex_` are in
a different module) the multi-key group-code linearization and result
densification.  Lists of naturals/integers stand for 1-D numpy arrays.
-/

namespace DaskGroupby

/-- Model of `np.unique`: the sorted list of distinct values. -/
def npUnique {α : Type} [LinearOrder α] [DecidableEq α] (l : List α) : List α :=
  (l.insertionSort (· ≤ ·)).dedup

/-- Model of `np.cumsum` on a 1-D array. -/
def cumsum : List ℕ → List ℕ
  | [] => []
  | a :: as => a :: (cumsum as).map (a + ·)

/-- Model of `np.diff` on a 1-D array (here always applied to
non-decreasing data, so natural subtraction is exact). -/
def npDiff (l : List ℕ) : List ℕ := List.zipWith (· - ·) l.tail l

/-- Entry `g` of `npg.aggregate_numpy.aggregate(labels, np.arange(len(labels)),
func="first")`: the index of the first occurrence of `g` in `labels`
(meaningful whenever `g` occurs). -/
def firstIndexOf : List ℕ → ℕ → ℕ
  | [], _ => 0
  | a :: as, g => if a = g then 0 else firstIndexOf as g + 1

/-- Entry `g` of `npg.aggregate_numpy.aggregate(labels, np.arange(len(labels)),
func="last")`: the index of the last occurrence of `g` in `labels`
(meaningful whenever `g` occurs). -/
def lastIndexOf : List ℕ → ℕ → ℕ
  | [], _ => 0
  | _ :: as, g => if g ∈ as then lastIndexOf as g + 1 else 0

/-- `chunkidx = np.cumsum(chunks) - 1`: the index of the last element of each
chunk. -/
def chunkIndices (chunks : List ℕ) : List ℕ := (cumsum chunks).map (· - 1)

/-- `labels_at_chunk_bounds = np.unique(labels[chunkidx])`. -/
def labelsAtChunkBounds (chunks labels : List ℕ) : List ℕ :=
  npUnique ((chunkIndices chunks).map (fun i => labels.getD i 0))

/-- One iteration of the boundary walk in `_get_optimal_chunks_for_groups`.
The accumulator is `newchunkidx` in reverse order, so `acc.headD 0` is
Python's `newchunkidx[-1]`.  `t = (c, f, l)` is one triple of
`zip(chunkidx, firstidx, lastidx)`. -/
def walkStep (acc : List ℕ) (t : ℕ × ℕ × ℕ) : List ℕ :=
  match t with
  | (c, f, l) =>
    if c = 0 ∨ l < acc.headD 0 then acc
    else if Nat.dist c f < Nat.dist c l ∧ acc.headD 0 < f then f :: acc
    else (l + 1) :: acc

/-- The full `newchunkidx` list of `_get_optimal_chunks_for_groups`, in
reverse order: the fold over `zip(chunkidx, firstidx, lastidx)` starting from
`[0]`, followed by the forced final boundary `chunkidx[-1] + 1`. -/
def newChunkIdxRev (chunks labels : List ℕ) : List ℕ :=
  let chunkidx := chunkIndices chunks
  let u := labelsAtChunkBounds chunks labels
  let firstidx := u.map (firstIndexOf labels)
  let lastidx := u.map (lastIndexOf labels)
  let walked := (chunkidx.zip (firstidx.zip lastidx)).foldl walkStep [0]
  if walked.headD 0 ≠ chunkidx.getLastD 0 + 1 then (chunkidx.getLastD 0 + 1) :: walked
  else walked

/-- `_get_optimal_chunks_for_groups(chunks, labels)`.  The Python fast-path
test `len(chunkidx) == len(lastidx) and (chunkidx == lastidx).all()` is list
equality; otherwise the result is `np.diff(newchunkidx)`. -/
def _get_optimal_chunks_for_groups (chunks labels : List ℕ) : List ℕ :=
  let chunkidx := chunkIndices chunks
  let lastidx := (labelsAtChunkBounds chunks labels).map (lastIndexOf labels)
  if chunkidx = lastidx then chunks
  else npDiff (newChunkIdxRev chunks labels).reverse

/-- Unfolding equation for `_get_optimal_chunks_for_groups`. -/
lemma optimal_def (chunks labels : List ℕ) :
    _get_optimal_chunks_for_groups chunks labels =
      if chunkIndices chunks
          = (labelsAtChunkBounds chunks labels).map (lastIndexOf labels)
      then chunks
      else npDiff (newChunkIdxRev chunks labels).reverse := rfl

/-! Basic facts about list indexing. -/

lemma getD_mem_of_lt {l : List ℕ} {j : ℕ} (hj : j < l.length) : l.getD j 0 ∈ l := by
  rw [List.getD_eq_get l 0 hj]
  exact List.get_mem l j hj

lemma sorted_getD_le {l : List ℕ} (hs : l.Sorted (· ≤ ·)) {i j : ℕ}
    (hij : i ≤ j) (hj : j < l.length) : l.getD i 0 ≤ l.getD j 0 := by
  rcases Nat.eq_or_lt_of_le hij with h | h
  · subst h; exact le_refl _
  · rw [List.getD_eq_get l 0 hj, List.getD_eq_get l 0 (lt_trans h hj)]
    exact List.pairwise_iff_get.mp hs ⟨i, lt_trans h hj⟩ ⟨j, hj⟩ h

lemma getLastD_indep {α : Type} {l : List α} (h : l ≠ []) (d e : α) :
    l.getLastD d = l.getLastD e := by
  cases l with
  | nil => exact absurd rfl h
  | cons a as => rfl

lemma getLastD_map {α β : Type} (f : α → β) (l : List α) (d : α) :
    (l.map f).getLastD (f d) = f (l.getLastD d) := by
  induction l generalizing d with
  | nil => rfl
  | cons y ys ih =>
    rw [List.map_cons, List.getLastD_cons, List.getLastD_cons]
    exact ih y

lemma getLastD_mem {α : Type} {l : List α} (h : l ≠ []) (d : α) :
    l.getLastD d ∈ l := by
  induction l generalizing d with
  | nil => exact absurd rfl h
  | cons a as ih =>
    rw [List.getLastD_cons]
    cases as with
    | nil => simp [List.getLastD]
    | cons b bs => exact List.mem_cons_of_mem a (ih (by simp) a)

/-! Facts about `firstIndexOf`. -/

lemma firstIndexOf_lt_length {l : List ℕ} {g : ℕ} (h : g ∈ l) :
    firstIndexOf l g < l.length := by
  induction l with
  | nil => cases h
  | cons a as ih =>
    simp only [firstIndexOf]
    split
    · simp
    · rename_i hne
      have hmem : g ∈ as := by
        rcases List.mem_cons.mp h with h' | h'
        · exact absurd h'.symm hne
        · exact h'
      simpa using Nat.succ_lt_succ (ih hmem)

lemma getD_firstIndexOf {l : List ℕ} {g : ℕ} (h : g ∈ l) :
    l.getD (firstIndexOf l g) 0 = g := by
  induction l with
  | nil => cases h
  | cons a as ih =>
    simp only [firstIndexOf]
    split
    · rename_i he; simpa using he
    · rename_i hne
      have hmem : g ∈ as := by
        rcases List.mem_cons.mp h with h' | h'
        · exact absurd h'.symm hne
        · exact h'
      simpa using ih hmem

lemma firstIndexOf_le {l : List ℕ} {g j : ℕ} (hj : j < l.length)
    (hg : l.getD j 0 = g) : firstIndexOf l g ≤ j := by
  induction l generalizing j with
  | nil => simp at hj
  | cons a as ih =>
    simp only [firstIndexOf]
    split
    · exact Nat.zero_le _
    · rename_i hne
      cases j with
      | zero => simp at hg; exact absurd hg hne
      | succ k =>
        have := ih (j := k) (Nat.lt_of_succ_lt_succ hj) (by simpa using hg)
        omega

/-! Facts about `lastIndexOf`. -/

lemma lastIndexOf_lt_length {l : List ℕ} {g : ℕ} (h : g ∈ l) :
    lastIndexOf l g < l.length := by
  induction l with
  | nil => cases h
  | cons a as ih =>
    simp only [lastIndexOf]
    split
    · rename_i hmem; simpa using Nat.succ_lt_succ (ih hmem)
    · simp

lemma getD_lastIndexOf {l : List ℕ} {g : ℕ} (h : g ∈ l) :
    l.getD (lastIndexOf l g) 0 = g := by
  induction l with
  | nil => cases h
  | cons a as ih =>
    simp only [lastIndexOf]
    split
    · rename_i hmem; simpa using ih hmem
    · rename_i hnmem
      rcases List.mem_cons.mp h with h' | h'
      · simpa using h'.symm
      · exact absurd h' hnmem

lemma le_lastIndexOf {l : List ℕ} {g j : ℕ} (hj : j < l.length)
    (hg : l.getD j 0 = g) : j ≤ lastIndexOf l g := by
  induction l generalizing j with
  | nil => simp at hj
  | cons a as ih =>
    cases j with
    | zero => exact Nat.zero_le _
    | succ k =>
      have hk : k < as.length := Nat.lt_of_succ_lt_succ hj
      have hg' : as.getD k 0 = g := by simpa using hg
      have hmem : g ∈ as := hg' ▸ getD_mem_of_lt hk
      simp only [lastIndexOf, if_pos hmem]
      exact Nat.succ_le_succ (ih hk hg')

lemma getD_ne_of_lastIndexOf_lt {l : List ℕ} {g j : ℕ}
    (hlt : lastIndexOf l g < j) (hj : j < l.length) : l.getD j 0 ≠ g := by
  intro hg
  exact absurd (le_lastIndexOf hj hg) (by omega)

lemma lastIndexOf_eq_of {l : List ℕ} {g j : ℕ} (hj : j < l.length)
    (hg : l.getD j 0 = g)
    (hafter : ∀ k, j < k → k < l.length → l.getD k 0 ≠ g) :
    lastIndexOf l g = j := by
  have hle : j ≤ lastIndexOf l g := le_lastIndexOf hj hg
  have hmem : g ∈ l := hg ▸ getD_mem_of_lt hj
  have hlt : lastIndexOf l g < l.length := lastIndexOf_lt_length hmem
  rcases Nat.eq_or_lt_of_le hle with h | h
  · exact h.symm
  · exact absurd (getD_lastIndexOf hmem) (hafter _ h hlt)

/-! Facts about `cumsum`, `chunkIndices` and `npDiff`. -/

lemma cumsum_ne_nil {chunks : List ℕ} (h : chunks ≠ []) : cumsum chunks ≠ [] := by
  cases chunks with
  | nil => exact absurd rfl h
  | cons a as => simp [cumsum]

lemma mem_cumsum_pos {chunks : List ℕ} (hpos : ∀ c ∈ chunks, 0 < c) :
    ∀ b ∈ cumsum chunks, 0 < b := by
  induction chunks with
  | nil => simp [cumsum]
  | cons a as ih =>
    intro b hb
    simp only [cumsum, List.mem_cons, List.mem_map] at hb
    have ha : 0 < a := hpos a (List.mem_cons_self a as)
    rcases hb with rfl | ⟨b', _, rfl⟩
    · exact ha
    · omega

lemma mem_cumsum_le_sum {chunks : List ℕ} :
    ∀ b ∈ cumsum chunks, b ≤ chunks.sum := by
  induction chunks with
  | nil => simp [cumsum]
  | cons a as ih =>
    intro b hb
    simp only [cumsum, List.mem_cons, List.mem_map] at hb
    rcases hb with rfl | ⟨b', hb', rfl⟩
    · simp
    · have := ih b' hb'
      simp only [List.sum_cons]
      omega

lemma cumsum_getLastD {chunks : List ℕ} (h : chunks ≠ []) :
    (cumsum chunks).getLastD 0 = chunks.sum := by
  induction chunks with
  | nil => exact absurd rfl h
  | cons a as ih =>
    cases has : as with
    | nil => simp [cumsum, has, List.getLastD]
    | cons b bs =>
      have hne : as ≠ [] := by simp [has]
      rw [← has]
      have hm := getLastD_map (a + ·) (cumsum as) 0
      rw [ih hne] at hm
      show (a :: (cumsum as).map (a + ·)).getLastD 0 = (a :: as).sum
      rw [List.getLastD_cons, List.sum_cons]
      have ha : a = a + 0 := rfl
      calc ((cumsum as).map (a + ·)).getLastD a
          = ((cumsum as).map (a + ·)).getLastD (a + 0) := by rw [← ha]
        _ = a + as.sum := hm

lemma cumsum_pairwise_lt {chunks : List ℕ} (hpos : ∀ c ∈ chunks, 0 < c) :
    (cumsum chunks).Pairwise (· < ·) := by
  induction chunks with
  | nil => simp [cumsum]
  | cons a as ih =>
    have ha : 0 < a := hpos a (List.mem_cons_self a as)
    have hrest := ih (fun c hc => hpos c (List.mem_cons_of_mem a hc))
    simp only [cumsum, List.pairwise_cons]
    constructor
    · intro b hb
      simp only [List.mem_map] at hb
      obtain ⟨b', hb', rfl⟩ := hb
      have := mem_cumsum_pos (fun c hc => hpos c (List.mem_cons_of_mem a hc)) b' hb'
      omega
    · rw [List.pairwise_map]
      exact hrest.imp (by omega)

lemma chunkIndices_pairwise_lt {chunks : List ℕ} (hpos : ∀ c ∈ chunks, 0 < c) :
    (chunkIndices chunks).Pairwise (· < ·) := by
  unfold chunkIndices
  rw [List.pairwise_map]
  refine (cumsum_pairwise_lt hpos).imp_of_mem ?_
  intro a b ha hb hab
  have h1 := mem_cumsum_pos hpos a ha
  omega

lemma chunkIndices_lt {chunks : List ℕ} {n : ℕ} (hpos : ∀ c ∈ chunks, 0 < c)
    (hsum : chunks.sum = n) : ∀ b ∈ chunkIndices chunks, b < n := by
  intro b hb
  unfold chunkIndices at hb
  rw [List.mem_map] at hb
  obtain ⟨b', hb', rfl⟩ := hb
  have h1 := mem_cumsum_pos hpos b' hb'
  have h2 := mem_cumsum_le_sum b' hb'
  omega

lemma chunkIndices_getLastD {chunks : List ℕ} (h : chunks ≠ []) :
    (chunkIndices chunks).getLastD 0 = chunks.sum - 1 := by
  unfold chunkIndices
  have hm := getLastD_map (· - 1) (cumsum chunks) 1
  rw [getLastD_indep (cumsum_ne_nil h) 1 0, cumsum_getLastD h] at hm
  simpa using hm

lemma npDiff_length {x : List ℕ} : (npDiff x).length = x.length - 1 := by
  unfold npDiff
  rw [List.length_zipWith, List.length_tail]
  omega

lemma npDiff_pos {x : List ℕ} (h : x.Pairwise (· < ·)) :
    ∀ d ∈ npDiff x, 0 < d := by
  induction x with
  | nil => simp [npDiff]
  | cons a as ih =>
    cases as with
    | nil => simp [npDiff]
    | cons b bs =>
      intro d hd
      simp only [npDiff, List.tail_cons, List.zipWith_cons_cons, List.mem_cons] at hd
      rcases hd with rfl | hd
      · have : a < b := (List.pairwise_cons.mp h).1 b (List.mem_cons_self b bs)
        omega
      · exact ih (List.pairwise_cons.mp h).2 d hd

lemma npDiff_sum : ∀ {a : ℕ} {xs : List ℕ}, (a :: xs).Pairwise (· ≤ ·) →
    (npDiff (a :: xs)).sum = (a :: xs).getLastD 0 - a := by
  intro a xs
  induction xs generalizing a with
  | nil =>
    intro _
    show (npDiff [a]).sum = [a].getLastD 0 - a
    have h1 : npDiff [a] = [] := rfl
    have h2 : [a].getLastD 0 = a := rfl
    rw [h1, h2, List.sum_nil]
    omega
  | cons b bs ih =>
    intro h
    have hab : a ≤ b := (List.pairwise_cons.mp h).1 b (List.mem_cons_self b bs)
    have htail := ih (a := b) (List.pairwise_cons.mp h).2
    have hble : b ≤ (b :: bs).getLastD 0 := by
      have hmem : (b :: bs).getLastD 0 ∈ b :: bs := getLastD_mem (by simp) 0
      rcases List.mem_cons.mp hmem with h' | h'
      · omega
      · exact (List.pairwise_cons.mp (List.pairwise_cons.mp h).2).1 _ h'
    have hstep : npDiff (a :: b :: bs) = (b - a) :: npDiff (b :: bs) := by
      simp [npDiff]
    rw [hstep, List.sum_cons, htail]
    have heq : (a :: b :: bs).getLastD 0 = (b :: bs).getLastD 0 := by
      rw [List.getLastD_cons]
      exact getLastD_indep (by simp) a 0
    rw [heq]
    omega

lemma cumsum_npDiff {a : ℕ} {xs : List ℕ} (h : (a :: xs).Pairwise (· ≤ ·)) :
    cumsum (npDiff (a :: xs)) = xs.map (· - a) := by
  induction xs generalizing a with
  | nil => simp [npDiff, cumsum]
  | cons b bs ih =>
    have hab : a ≤ b := (List.pairwise_cons.mp h).1 b (List.mem_cons_self b bs)
    have hbs : ∀ c ∈ bs, b ≤ c :=
      fun c hc => (List.pairwise_cons.mp (List.pairwise_cons.mp h).2).1 c hc
    have htail := ih (a := b) (List.pairwise_cons.mp h).2
    simp only [npDiff, List.tail_cons, List.zipWith_cons_cons] at htail ⊢
    simp only [cumsum, htail, List.map_cons, List.map_map]
    congr 1
    refine List.map_congr_left ?_
    intro c hc
    have := hbs c hc
    simp only [Function.comp_apply]
    omega

/-! The boundary-walk invariant. -/

/-- A position that a chunk boundary may legally occupy: the start of the
sequence, its end, or a point where the label changes. -/
def RunBound (labels : List ℕ) (b : ℕ) : Prop :=
  b = 0 ∨ (0 < b ∧ b ≤ labels.length ∧
    (b = labels.length ∨ labels.getD (b - 1) 0 ≠ labels.getD b 0))

/-- The components `(c, f, l)` fed to the walk: `f` and `l` are the first and
last occurrence indices of a group that occurs in `labels`. -/
def TripleOK (labels : List ℕ) (t : ℕ × ℕ × ℕ) : Prop :=
  ∃ g ∈ labels, t.2.1 = firstIndexOf labels g ∧ t.2.2 = lastIndexOf labels g

/-- Invariant maintained by the walk over the reversed `newchunkidx`
accumulator. -/
structure WalkInv (labels : List ℕ) (acc : List ℕ) : Prop where
  ne : acc ≠ []
  sorted : acc.Pairwise (· > ·)
  le : ∀ a ∈ acc, a ≤ labels.length
  rb : ∀ a ∈ acc, RunBound labels a
  lastZero : acc.getLastD 0 = 0

lemma pairwise_gt_cons {x : ℕ} {h : ℕ} {t : List ℕ}
    (hp : (h :: t).Pairwise (· > ·)) (hx : h < x) :
    (x :: h :: t).Pairwise (· > ·) := by
  rw [List.pairwise_cons]
  refine ⟨?_, hp⟩
  intro b hb
  rcases List.mem_cons.mp hb with rfl | hb'
  · exact hx
  · have := (List.pairwise_cons.mp hp).1 b hb'
    omega

lemma walkStep_inv {labels : List ℕ} {acc : List ℕ} {t : ℕ × ℕ × ℕ}
    (hi : WalkInv labels acc) (ht : TripleOK labels t) :
    WalkInv labels (walkStep acc t) := by
  obtain ⟨c, f, l⟩ := t
  obtain ⟨g, hg, hf, hl⟩ := ht
  simp only at hf hl
  obtain ⟨h, tl, rfl⟩ := List.exists_cons_of_ne_nil hi.ne
  subst hf hl
  simp only [walkStep, List.headD_cons]
  split
  · exact hi
  · rename_i hskip
    push_neg at hskip
    obtain ⟨hc0, hhl⟩ := hskip
    -- in both emit branches the head h satisfies h ≤ lastIndexOf labels g
    split
    · rename_i hemit
      obtain ⟨_, hhf⟩ := hemit
      -- emit the first index of g
      have hflt : firstIndexOf labels g < labels.length := firstIndexOf_lt_length hg
      refine ⟨by simp, pairwise_gt_cons hi.sorted hhf, ?_, ?_, ?_⟩
      · intro a ha
        rcases List.mem_cons.mp ha with rfl | ha'
        · omega
        · exact hi.le a ha'
      · intro a ha
        rcases List.mem_cons.mp ha with rfl | ha'
        · -- the first index of g is a run bound
          right
          refine ⟨by omega, by omega, Or.inr ?_⟩
          have h1 : labels.getD (firstIndexOf labels g) 0 = g := getD_firstIndexOf hg
          intro hEq
          rw [h1] at hEq
          have h2 : firstIndexOf labels g ≤ firstIndexOf labels g - 1 :=
            firstIndexOf_le (by omega) hEq
          omega
        · exact hi.rb a ha'
      · rw [List.getLastD_cons]
        rw [getLastD_indep (by simp) (firstIndexOf labels g) 0]
        exact hi.lastZero
    · -- emit lastIndexOf + 1
      have hllt : lastIndexOf labels g < labels.length := lastIndexOf_lt_length hg
      refine ⟨by simp, pairwise_gt_cons hi.sorted (by omega), ?_, ?_, ?_⟩
      · intro a ha
        rcases List.mem_cons.mp ha with rfl | ha'
        · omega
        · exact hi.le a ha'
      · intro a ha
        rcases List.mem_cons.mp ha with rfl | ha'
        · right
          refine ⟨by omega, by omega, ?_⟩
          rcases Nat.eq_or_lt_of_le hllt with hEnd | hMid
          · exact Or.inl (by omega)
          · refine Or.inr ?_
            have h1 : labels.getD (lastIndexOf labels g + 1 - 1) 0 = g := by
              simpa using getD_lastIndexOf hg
            rw [h1]
            exact fun hEq => getD_ne_of_lastIndexOf_lt (by omega) hMid hEq.symm
        · exact hi.rb a ha'
      · rw [List.getLastD_cons]
        rw [getLastD_indep (by simp) (lastIndexOf labels g + 1) 0]
        exact hi.lastZero

lemma foldl_walkStep_inv {labels : List ℕ} (ts : List (ℕ × ℕ × ℕ))
    {acc : List ℕ} (hts : ∀ t ∈ ts, TripleOK labels t)
    (hacc : WalkInv labels acc) : WalkInv labels (ts.foldl walkStep acc) := by
  induction ts generalizing acc with
  | nil => exact hacc
  | cons t ts ih =>
    rw [List.foldl_cons]
    exact ih (fun t' ht' => hts t' (List.mem_cons_of_mem t ht'))
      (walkStep_inv hacc (hts t (List.mem_cons_self t ts)))

lemma mem_npUnique {α : Type} [LinearOrder α] [DecidableEq α] {a : α}
    {l : List α} : a ∈ npUnique l ↔ a ∈ l := by
  unfold npUnique
  rw [List.mem_dedup]
  exact (List.perm_insertionSort (· ≤ ·) l).mem_iff

lemma mem_labelsAtChunkBounds {chunks labels : List ℕ} {g : ℕ}
    (hpos : ∀ c ∈ chunks, 0 < c) (hsum : chunks.sum = labels.length)
    (hg : g ∈ labelsAtChunkBounds chunks labels) : g ∈ labels := by
  unfold labelsAtChunkBounds at hg
  rw [mem_npUnique, List.mem_map] at hg
  obtain ⟨i, hi, rfl⟩ := hg
  exact getD_mem_of_lt (chunkIndices_lt hpos hsum i hi)

lemma triples_ok {chunks labels : List ℕ} (hpos : ∀ c ∈ chunks, 0 < c)
    (hsum : chunks.sum = labels.length) :
    ∀ t ∈ (chunkIndices chunks).zip
        (((labelsAtChunkBounds chunks labels).map (firstIndexOf labels)).zip
          ((labelsAtChunkBounds chunks labels).map (lastIndexOf labels))),
      TripleOK labels t := by
  intro t ht
  have h2 := (List.of_mem_zip ht).2
  rw [List.zip_map', List.mem_map] at h2
  obtain ⟨g, hgu, hpair⟩ := h2
  exact ⟨g, mem_labelsAtChunkBounds hpos hsum hgu,
    by rw [← hpair], by rw [← hpair]⟩

lemma newChunkIdxRev_props {chunks labels : List ℕ} (hne : chunks ≠ [])
    (hpos : ∀ c ∈ chunks, 0 < c) (hsum : chunks.sum = labels.length) :
    WalkInv labels (newChunkIdxRev chunks labels) ∧
    (newChunkIdxRev chunks labels).headD 0 = labels.length := by
  have hn1 : 1 ≤ labels.length := by
    obtain ⟨c, cs, rfl⟩ := List.exists_cons_of_ne_nil hne
    have := hpos c (List.mem_cons_self c cs)
    rw [List.sum_cons] at hsum
    omega
  have hinit : WalkInv labels [0] :=
    ⟨by simp, by simp, by simp, fun a ha => by
      rw [List.mem_singleton] at ha
      exact Or.inl ha, rfl⟩
  have hwalk : WalkInv labels
      (((chunkIndices chunks).zip
        (((labelsAtChunkBounds chunks labels).map (firstIndexOf labels)).zip
          ((labelsAtChunkBounds chunks labels).map
            (lastIndexOf labels)))).foldl walkStep [0]) :=
    foldl_walkStep_inv _ (triples_ok hpos hsum) hinit
  have hm : (chunkIndices chunks).getLastD 0 + 1 = labels.length := by
    rw [chunkIndices_getLastD hne, hsum]
    omega
  unfold newChunkIdxRev
  simp only [hm]
  set walked := ((chunkIndices chunks).zip
    (((labelsAtChunkBounds chunks labels).map (firstIndexOf labels)).zip
      ((labelsAtChunkBounds chunks labels).map
        (lastIndexOf labels)))).foldl walkStep [0] with hwdef
  split
  · rename_i hcond
    obtain ⟨h, t, hht⟩ := List.exists_cons_of_ne_nil hwalk.ne
    have hhne : h ≠ labels.length := by
      rw [hht] at hcond
      simpa using hcond
    have hhle : h ≤ labels.length := hwalk.le h (by rw [hht]; exact List.mem_cons_self h t)
    refine ⟨⟨by simp, ?_, ?_, ?_, ?_⟩, by simp⟩
    · rw [hht]
      exact pairwise_gt_cons (hht ▸ hwalk.sorted) (by omega)
    · intro a ha
      rcases List.mem_cons.mp ha with rfl | ha'
      · exact le_refl _
      · exact hwalk.le a ha'
    · intro a ha
      rcases List.mem_cons.mp ha with rfl | ha'
      · exact Or.inr ⟨by omega, le_refl _, Or.inl rfl⟩
      · exact hwalk.rb a ha'
    · rw [List.getLastD_cons, getLastD_indep hwalk.ne (labels.length) 0]
      exact hwalk.lastZero
  · rename_i hcond
    push_neg at hcond
    exact ⟨hwalk, hcond⟩

lemma headD_reverse {α : Type} (l : List α) (d : α) :
    l.reverse.headD d = l.getLastD d := by
  rw [List.headD_eq_head?, List.head?_reverse, List.getLastD_eq_getLast?]

lemma getLastD_reverse {α : Type} (l : List α) (d : α) :
    l.reverse.getLastD d = l.headD d := by
  rw [List.getLastD_eq_getLast?, List.getLast?_reverse, List.headD_eq_head?]

/-- Structure of the forward boundary list `newchunkidx` in the non-trivial
branch: it is `0 :: t` with `t` strictly increasing, consisting of legal run
bounds, and ending at `len(labels)`; its consecutive differences are the new
chunks. -/
lemma optimal_else_props {chunks labels : List ℕ} (hne : chunks ≠ [])
    (hpos : ∀ c ∈ chunks, 0 < c) (hsum : chunks.sum = labels.length) :
    ∃ t : List ℕ, (newChunkIdxRev chunks labels).reverse = 0 :: t ∧
      t ≠ [] ∧
      (0 :: t).Pairwise (· < ·) ∧
      cumsum (npDiff (0 :: t)) = t ∧
      (npDiff (0 :: t)).sum = labels.length ∧
      (∀ c ∈ npDiff (0 :: t), 0 < c) ∧
      (∀ b ∈ t, 0 < b ∧ RunBound labels b ∧ b ≤ labels.length) ∧
      t.getLastD 0 = labels.length := by
  obtain ⟨hinv, hhead⟩ := newChunkIdxRev_props hne hpos hsum
  have hn1 : 1 ≤ labels.length := by
    obtain ⟨c, cs, rfl⟩ := List.exists_cons_of_ne_nil hne
    have := hpos c (List.mem_cons_self c cs)
    rw [List.sum_cons] at hsum
    omega
  set r := newChunkIdxRev chunks labels with hr
  have hxne : r.reverse ≠ [] := by
    simp only [ne_eq, List.reverse_eq_nil_iff]
    exact hinv.ne
  obtain ⟨b, t, hbt⟩ := List.exists_cons_of_ne_nil hxne
  have hb0 : b = 0 := by
    have := headD_reverse r 0
    rw [hbt, List.headD_cons] at this
    rw [this]
    exact hinv.lastZero
  subst hb0
  have hmemx : ∀ a ∈ (0 : ℕ) :: t, a ∈ r := by
    intro a ha
    rw [← hbt] at ha
    exact List.mem_reverse.mp ha
  have hpair : ((0 : ℕ) :: t).Pairwise (· < ·) := by
    rw [← hbt]
    rw [List.pairwise_reverse]
    exact hinv.sorted
  have hlastx : ((0 : ℕ) :: t).getLastD 0 = labels.length := by
    rw [← hbt, getLastD_reverse]
    exact hhead
  have htne : t ≠ [] := by
    intro hteq
    rw [hteq] at hlastx
    have h0 : ((0 : ℕ) :: ([] : List ℕ)).getLastD 0 = 0 := rfl
    rw [h0] at hlastx
    omega
  have hlastt : t.getLastD 0 = labels.length := by
    rw [List.getLastD_cons] at hlastx
    rw [getLastD_indep htne 0 (0 : ℕ)]
    exact hlastx
  have hmemt : ∀ a ∈ t, 0 < a ∧ RunBound labels a ∧ a ≤ labels.length := by
    intro a ha
    refine ⟨(List.pairwise_cons.mp hpair).1 a ha, ?_, ?_⟩
    · exact hinv.rb a (hmemx a (List.mem_cons_of_mem 0 ha))
    · exact hinv.le a (hmemx a (List.mem_cons_of_mem 0 ha))
  have hcs : cumsum (npDiff (0 :: t)) = t := by
    rw [cumsum_npDiff (hpair.imp (by omega))]
    have : ∀ a ∈ t, a - 0 = a := by intro a _; omega
    rw [List.map_congr_left this]
    simp
  have hsumd : (npDiff (0 :: t)).sum = labels.length := by
    rw [npDiff_sum (hpair.imp (by omega)), hlastx]
    omega
  exact ⟨t, hbt, htne, hpair, hcs, hsumd, npDiff_pos hpair, hmemt, hlastt⟩

/-- In both branches, the result of `_get_optimal_chunks_for_groups` is a
non-empty list of positive chunk sizes summing to `sum(chunks)` (so the
`assert sum(newchunks) == sum(chunks)` in the source never fires). -/
lemma optimal_valid {chunks labels : List ℕ} (hne : chunks ≠ [])
    (hpos : ∀ c ∈ chunks, 0 < c) (hsum : chunks.sum = labels.length) :
    (_get_optimal_chunks_for_groups chunks labels).sum = chunks.sum ∧
    _get_optimal_chunks_for_groups chunks labels ≠ [] ∧
    ∀ c ∈ _get_optimal_chunks_for_groups chunks labels, 0 < c := by
  rw [optimal_def]
  split
  · exact ⟨rfl, hne, hpos⟩
  · obtain ⟨t, hbt, htne, hpair, hcs, hsumd, hdpos, hmemt, hlastt⟩ :=
      optimal_else_props hne hpos hsum
    rw [hbt]
    refine ⟨by rw [hsumd, hsum], ?_, hdpos⟩
    intro hnil
    have hzero := congrArg List.sum hnil
    rw [hsumd, List.sum_nil] at hzero
    obtain ⟨c, cs, rfl⟩ := List.exists_cons_of_ne_nil hne
    have hcpos := hpos c (List.mem_cons_self c cs)
    rw [List.sum_cons] at hsum
    omega

/-- In the identity fast path the cumulative chunk boundaries are last
indices of their groups, hence legal run bounds. -/
lemma fastpath_bounds {chunks labels : List ℕ}
    (hpos : ∀ c ∈ chunks, 0 < c) (hsum : chunks.sum = labels.length)
    (hcond : chunkIndices chunks
      = (labelsAtChunkBounds chunks labels).map (lastIndexOf labels)) :
    ∀ b ∈ cumsum chunks, b = labels.length ∨
      (0 < b ∧ b < labels.length ∧
        labels.getD (b - 1) 0 ≠ labels.getD b 0) := by
  intro b hb
  have hbpos : 0 < b := mem_cumsum_pos hpos b hb
  have hble : b ≤ labels.length := hsum ▸ mem_cumsum_le_sum b hb
  rcases Nat.eq_or_lt_of_le hble with hEnd | hMid
  · exact Or.inl hEnd
  · refine Or.inr ⟨hbpos, hMid, ?_⟩
    have hbm : b - 1 ∈ chunkIndices chunks := by
      unfold chunkIndices
      exact List.mem_map.mpr ⟨b, hb, rfl⟩
    rw [hcond, List.mem_map] at hbm
    obtain ⟨g, hgu, hglast⟩ := hbm
    have hglab : g ∈ labels := mem_labelsAtChunkBounds hpos hsum hgu
    have h1 : labels.getD (b - 1) 0 = g := by
      rw [← hglast]
      exact getD_lastIndexOf hglab
    rw [h1]
    exact fun hEq =>
      getD_ne_of_lastIndexOf_lt (by omega) hMid hEq.symm

/-- If every cumulative chunk boundary is the last occurrence index of some
group, the fast-path test of `_get_optimal_chunks_for_groups` succeeds and
the input is returned unchanged. -/
lemma identity_of_last_bounds {chunks labels : List ℕ}
    (hpos : ∀ c ∈ chunks, 0 < c) (hsum : chunks.sum = labels.length)
    (hmono : labels.Sorted (· ≤ ·))
    (hb : ∀ b ∈ chunkIndices chunks, ∃ g ∈ labels, b = lastIndexOf labels g) :
    _get_optimal_chunks_for_groups chunks labels = chunks := by
  have hself : ∀ b ∈ chunkIndices chunks,
      b = lastIndexOf labels (labels.getD b 0) := by
    intro b hbm
    obtain ⟨g, hg, rfl⟩ := hb b hbm
    rw [getD_lastIndexOf hg]
  have hblt : ∀ b ∈ chunkIndices chunks, b < labels.length :=
    chunkIndices_lt hpos hsum
  have hpw : (chunkIndices chunks).Pairwise (· < ·) := chunkIndices_pairwise_lt hpos
  -- the boundary labels are sorted with no duplicates, so np.unique keeps them
  have hsorted : (List.map (fun i => labels.getD i 0)
      (chunkIndices chunks)).Sorted (· ≤ ·) := by
    rw [List.Sorted, List.pairwise_map]
    refine hpw.imp_of_mem ?_
    intro a b ha hbm hab
    exact sorted_getD_le hmono (le_of_lt hab) (hblt b hbm)
  have hnodup : (List.map (fun i => labels.getD i 0)
      (chunkIndices chunks)).Nodup := by
    rw [List.Nodup, List.pairwise_map]
    refine hpw.imp_of_mem ?_
    intro a b ha hbm hab hEq
    have h1 := hself a ha
    have h2 := hself b hbm
    rw [hEq] at h1
    omega
  have huniq : labelsAtChunkBounds chunks labels
      = List.map (fun i => labels.getD i 0) (chunkIndices chunks) := by
    unfold labelsAtChunkBounds npUnique
    rw [List.Sorted.insertionSort_eq hsorted, List.dedup_eq_self.mpr hnodup]
  have hcond : chunkIndices chunks
      = (labelsAtChunkBounds chunks labels).map (lastIndexOf labels) := by
    rw [huniq, List.map_map]
    have : ∀ b ∈ chunkIndices chunks,
        (lastIndexOf labels ∘ fun i => labels.getD i 0) b = id b := by
      intro b hbm
      exact (hself b hbm).symm
    rw [List.map_congr_left this, List.map_id]
  rw [optimal_def, if_pos hcond]

/-- Every cumulative boundary of the output of
`_get_optimal_chunks_for_groups` is the last occurrence index of some
group. -/
lemma output_bounds_are_last {chunks labels : List ℕ} (hne : chunks ≠ [])
    (hpos : ∀ c ∈ chunks, 0 < c) (hsum : chunks.sum = labels.length)
    (hmono : labels.Sorted (· ≤ ·)) :
    ∀ b ∈ chunkIndices (_get_optimal_chunks_for_groups chunks labels),
      ∃ g ∈ labels, b = lastIndexOf labels g := by
  rw [optimal_def]
  split
  · rename_i hcond
    intro b hbm
    rw [hcond, List.mem_map] at hbm
    obtain ⟨g, hgu, rfl⟩ := hbm
    exact ⟨g, mem_labelsAtChunkBounds hpos hsum hgu, rfl⟩
  · obtain ⟨t, hbt, htne, hpair, hcs, hsumd, hdpos, hmemt, hlastt⟩ :=
      optimal_else_props hne hpos hsum
    rw [hbt]
    intro b hbm
    unfold chunkIndices at hbm
    rw [hcs, List.mem_map] at hbm
    obtain ⟨e, he, rfl⟩ := hbm
    obtain ⟨hepos, herb, hele⟩ := hmemt e he
    have helt : e - 1 < labels.length := by omega
    refine ⟨labels.getD (e - 1) 0, getD_mem_of_lt helt, ?_⟩
    refine (lastIndexOf_eq_of helt rfl ?_).symm
    intro k hk1 hk2
    rcases herb with h0 | ⟨_, _, hEnd | hDiff⟩
    · omega
    · omega
    · -- labels change strictly at e, and stay ≥ labels[e] afterwards
      have hlt : labels.getD (e - 1) 0 < labels.getD e 0 := by
        have hle := sorted_getD_le hmono (show e - 1 ≤ e by omega)
          (show e < labels.length by omega)
        exact lt_of_le_of_ne hle hDiff
      have hke : e ≤ k := by omega
      have := sorted_getD_le hmono hke hk2
      omega

/-- C1: for every non-empty Partitioning `chunks` (positive entries) and
monotonically non-decreasing label list `labels` with `sum(chunks) =
len(labels)`, `_get_optimal_chunks_for_groups` returns a partitioning (a
non-empty list of positive sizes) whose entries sum exactly to
`sum(chunks)`; hence the `assert sum(newchunks) == sum(chunks)` at the end
of the function never fails. -/
theorem optimal_chunks_sum_preserved (chunks labels : List ℕ)
    (hne : chunks ≠ []) (hpos : ∀ c ∈ chunks, 0 < c)
    (hsum : chunks.sum = labels.length) (hmono : labels.Sorted (· ≤ ·)) :
    (_get_optimal_chunks_for_groups chunks labels).sum = chunks.sum ∧
    _get_optimal_chunks_for_groups chunks labels ≠ [] ∧
    ∀ c ∈ _get_optimal_chunks_for_groups chunks labels, 0 < c :=
  optimal_valid hne hpos hsum

theorem optimal_chunks_sum_preserved_witness :
    (([4, 3, 2] : List ℕ) ≠ [] ∧ (∀ c ∈ ([4, 3, 2] : List ℕ), 0 < c) ∧
      ([4, 3, 2] : List ℕ).sum = ([0, 0, 0, 1, 1, 1, 1, 2, 2] : List ℕ).length ∧
      ([0, 0, 0, 1, 1, 1, 1, 2, 2] : List ℕ).Sorted (· ≤ ·)) ∧
    ((_get_optimal_chunks_for_groups [4, 3, 2] [0, 0, 0, 1, 1, 1, 1, 2, 2]).sum
        = ([4, 3, 2] : List ℕ).sum ∧
      _get_optimal_chunks_for_groups [4, 3, 2] [0, 0, 0, 1, 1, 1, 1, 2, 2] ≠ [] ∧
      ∀ c ∈ _get_optimal_chunks_for_groups [4, 3, 2] [0, 0, 0, 1, 1, 1, 1, 2, 2],
        0 < c) :=
  ⟨⟨by decide, by decide, by decide, by decide⟩,
    optimal_chunks_sum_preserved [4, 3, 2] [0, 0, 0, 1, 1, 1, 1, 2, 2]
      (by decide) (by decide) (by decide) (by decide)⟩

/-- C2: no boundary of the returned partitioning falls inside a group run:
every cumulative boundary of the output either is the sequence end or sits
where the label changes, and the final boundary equals the sequence end. -/
theorem optimal_chunks_no_group_split (chunks labels : List ℕ)
    (hne : chunks ≠ []) (hpos : ∀ c ∈ chunks, 0 < c)
    (hsum : chunks.sum = labels.length) (hmono : labels.Sorted (· ≤ ·)) :
    (∀ b ∈ cumsum (_get_optimal_chunks_for_groups chunks labels),
      b = labels.length ∨ (0 < b ∧ b < labels.length ∧
        labels.getD (b - 1) 0 ≠ labels.getD b 0)) ∧
    (cumsum (_get_optimal_chunks_for_groups chunks labels)).getLastD 0
      = labels.length := by
  rw [optimal_def]
  split
  · rename_i hcond
    refine ⟨fastpath_bounds hpos hsum hcond, ?_⟩
    rw [cumsum_getLastD hne, hsum]
  · obtain ⟨t, hbt, htne, hpair, hcs, hsumd, hdpos, hmemt, hlastt⟩ :=
      optimal_else_props hne hpos hsum
    rw [hbt, hcs]
    refine ⟨?_, hlastt⟩
    intro b hb
    obtain ⟨hbpos, hrb, hble⟩ := hmemt b hb
    rcases hrb with h0 | ⟨_, hble', hEnd | hDiff⟩
    · omega
    · exact Or.inl hEnd
    · rcases Nat.eq_or_lt_of_le hble' with hE | hM
      · exact Or.inl hE
      · exact Or.inr ⟨hbpos, hM, hDiff⟩

theorem optimal_chunks_no_group_split_witness :
    (([1, 1, 2] : List ℕ) ≠ [] ∧ (∀ c ∈ ([1, 1, 2] : List ℕ), 0 < c) ∧
      ([1, 1, 2] : List ℕ).sum = ([0, 0, 1, 1] : List ℕ).length ∧
      ([0, 0, 1, 1] : List ℕ).Sorted (· ≤ ·)) ∧
    ((∀ b ∈ cumsum (_get_optimal_chunks_for_groups [1, 1, 2] [0, 0, 1, 1]),
        b = ([0, 0, 1, 1] : List ℕ).length ∨
          (0 < b ∧ b < ([0, 0, 1, 1] : List ℕ).length ∧
            ([0, 0, 1, 1] : List ℕ).getD (b - 1) 0
              ≠ ([0, 0, 1, 1] : List ℕ).getD b 0)) ∧
      (cumsum (_get_optimal_chunks_for_groups [1, 1, 2] [0, 0, 1, 1])).getLastD 0
        = ([0, 0, 1, 1] : List ℕ).length) :=
  ⟨⟨by decide, by decide, by decide, by decide⟩,
    optimal_chunks_no_group_split [1, 1, 2] [0, 0, 1, 1]
      (by decide) (by decide) (by decide) (by decide)⟩

/-- C3: if every cumulative boundary of the input chunks is the last
occurrence index of some group of `labels`, the function returns `chunks`
unchanged (identity fast path); the instance `chunks = (3,4,2)`,
`labels = [0,0,0,1,1,1,1,2,2]` is the witness below. -/
theorem optimal_chunks_identity_fast_path (chunks labels : List ℕ)
    (hpos : ∀ c ∈ chunks, 0 < c) (hsum : chunks.sum = labels.length)
    (hmono : labels.Sorted (· ≤ ·))
    (hb : ∀ b ∈ chunkIndices chunks, ∃ g ∈ labels, b = lastIndexOf labels g) :
    _get_optimal_chunks_for_groups chunks labels = chunks :=
  identity_of_last_bounds hpos hsum hmono hb

theorem optimal_chunks_identity_fast_path_witness :
    ((∀ c ∈ ([3, 4, 2] : List ℕ), 0 < c) ∧
      ([3, 4, 2] : List ℕ).sum = ([0, 0, 0, 1, 1, 1, 1, 2, 2] : List ℕ).length ∧
      ([0, 0, 0, 1, 1, 1, 1, 2, 2] : List ℕ).Sorted (· ≤ ·) ∧
      (∀ b ∈ chunkIndices [3, 4, 2], ∃ g ∈ ([0, 0, 0, 1, 1, 1, 1, 2, 2] : List ℕ),
        b = lastIndexOf [0, 0, 0, 1, 1, 1, 1, 2, 2] g)) ∧
    _get_optimal_chunks_for_groups [3, 4, 2] [0, 0, 0, 1, 1, 1, 1, 2, 2]
      = [3, 4, 2] :=
  ⟨⟨by decide, by decide, by decide, by decide⟩,
    optimal_chunks_identity_fast_path [3, 4, 2] [0, 0, 0, 1, 1, 1, 1, 2, 2]
      (by decide) (by decide) (by decide) (by decide)⟩

/-- C5: `_get_optimal_chunks_for_groups` is idempotent: applied to its own
output (with the same labels) it returns that output unchanged. -/
theorem optimal_chunks_idempotent (chunks labels : List ℕ)
    (hne : chunks ≠ []) (hpos : ∀ c ∈ chunks, 0 < c)
    (hsum : chunks.sum = labels.length) (hmono : labels.Sorted (· ≤ ·)) :
    _get_optimal_chunks_for_groups
        (_get_optimal_chunks_for_groups chunks labels) labels
      = _get_optimal_chunks_for_groups chunks labels := by
  obtain ⟨hsum2, hne2, hpos2⟩ := optimal_valid hne hpos hsum
  exact identity_of_last_bounds hpos2 (hsum2.trans hsum) hmono
    (output_bounds_are_last hne hpos hsum hmono)

theorem optimal_chunks_idempotent_witness :
    (([4, 3, 2] : List ℕ) ≠ [] ∧ (∀ c ∈ ([4, 3, 2] : List ℕ), 0 < c) ∧
      ([4, 3, 2] : List ℕ).sum = ([0, 0, 0, 1, 1, 1, 1, 2, 2] : List ℕ).length ∧
      ([0, 0, 0, 1, 1, 1, 1, 2, 2] : List ℕ).Sorted (· ≤ ·)) ∧
    _get_optimal_chunks_for_groups
        (_get_optimal_chunks_for_groups [4, 3, 2] [0, 0, 0, 1, 1, 1, 1, 2, 2])
        [0, 0, 0, 1, 1, 1, 1, 2, 2]
      = _get_optimal_chunks_for_groups [4, 3, 2] [0, 0, 0, 1, 1, 1, 1, 2, 2] :=
  ⟨⟨by decide, by decide, by decide, by decide⟩,
    optimal_chunks_idempotent [4, 3, 2] [0, 0, 0, 1, 1, 1, 1, 2, 2]
      (by decide) (by decide) (by decide) (by decide)⟩

/-- C8: in the boundary walk, whenever a boundary is actually processed
(not skipped) and the distance to the group's first index ties the distance
to its last index, the emitted boundary is `last + 1`, never `first`. -/
theorem walk_tie_emits_last (acc : List ℕ) (c f l : ℕ)
    (hproc : ¬(c = 0 ∨ l < acc.headD 0))
    (htie : Nat.dist c f = Nat.dist c l) :
    walkStep acc (c, f, l) = (l + 1) :: acc := by
  have hnot : ¬(Nat.dist c f < Nat.dist c l ∧ acc.headD 0 < f) := by
    rintro ⟨h1, -⟩
    rw [htie] at h1
    exact lt_irrefl _ h1
  simp only [walkStep]
  rw [if_neg hproc, if_neg hnot]

theorem walk_tie_emits_last_witness :
    (¬((2 : ℕ) = 0 ∨ (3 : ℕ) < ([0] : List ℕ).headD 0) ∧
      Nat.dist 2 1 = Nat.dist 2 3) ∧
    walkStep [0] (2, 1, 3) = [4, 0] :=
  ⟨⟨by decide, by decide⟩,
    walk_tie_emits_last [0] 2 1 3 (by decide) (by decide)⟩

/-! Embedding of the validation logic at the top of `xarray_reduce`. -/

/-- A grouping-key array as `xarray_reduce` sees it: its values and whether
it is backed by a lazy dask collection.  `isinstance(by[0].data, np.ndarray)`
in the source corresponds to `isDask = false`. -/
structure KeyArray where
  data : List ℤ
  isDask : Bool

/-- The guard on line 31 of the source:
`len(by) > 1 and any(dask.is_dask_collection(by_) for by_ in by)`;
when it is `true` the function raises
`ValueError("Grouping by multiple variables will call compute dask variables.")`. -/
def multiKeyDaskGuard (keys : List KeyArray) : Bool :=
  decide (1 < keys.length) && keys.any (·.isDask)

/-- The errors raised by the validation code of `xarray_reduce`. -/
inductive ReduceError where
  | valueError : ReduceError
  | notImplementedError : ReduceError
deriving DecidableEq

/-- The single-key branch of `xarray_reduce` (lines 52-58): with no
`expected_groups`, a numpy-backed key yields `np.unique` of its data, and a
non-numpy-backed key raises `NotImplementedError`. -/
def singleKeyExpectedGroups (key : KeyArray) (expectedGroups : Option (List ℤ)) :
    Except ReduceError (List ℤ) :=
  match expectedGroups with
  | some eg => Except.ok eg
  | none =>
    if key.isDask = false then Except.ok (npUnique key.data)
    else Except.error ReduceError.notImplementedError

/-- `group_shape = (len(expected_groups[0]),)` in the single-key branch. -/
def singleKeyGroupShape (key : KeyArray) (expectedGroups : Option (List ℤ)) :
    Except ReduceError ℕ :=
  (singleKeyExpectedGroups key expectedGroups).map List.length

/-- C6 (counterexample): with two keys of which exactly one is lazy, the
source's guard is `true` (it raises `ValueError`), although the claim says
an error occurs only when more than one key is lazy. -/
theorem multi_key_dask_guard_counterexample :
    multiKeyDaskGuard [⟨[0], true⟩, ⟨[0], false⟩] = true ∧
    (List.filter (fun k : KeyArray => k.isDask)
      ([⟨[0], true⟩, ⟨[0], false⟩] : List KeyArray)).length = 1 := by
  decide

/-- C6 (amended): `xarray_reduce` raises the multi-key `ValueError` exactly
when there is more than one grouping key and at least one key (not
necessarily more than one) is backed by a lazy dask collection. -/
theorem multi_key_dask_guard_amended (keys : List KeyArray) :
    multiKeyDaskGuard keys = true ↔
      1 < keys.length ∧ ∃ k ∈ keys, k.isDask = true := by
  unfold multiKeyDaskGuard
  simp

/-- C7: with a single key and no expected groups, a materialized
(numpy-backed) key yields the sorted distinct observed values, with group
shape their count; a non-materialized key with no expected groups raises
`NotImplementedError`. -/
theorem single_key_expected_groups_spec (key : KeyArray) :
    (key.isDask = false →
      singleKeyExpectedGroups key none = Except.ok (npUnique key.data) ∧
      (npUnique key.data).Sorted (· ≤ ·) ∧
      (npUnique key.data).Nodup ∧
      (∀ v : ℤ, v ∈ npUnique key.data ↔ v ∈ key.data) ∧
      singleKeyGroupShape key none = Except.ok (npUnique key.data).length) ∧
    (key.isDask = true →
      singleKeyExpectedGroups key none
        = Except.error ReduceError.notImplementedError) := by
  constructor
  · intro h
    refine ⟨by simp [singleKeyExpectedGroups, h], ?_, List.nodup_dedup _,
      fun _ => mem_npUnique,
      by simp [singleKeyGroupShape, singleKeyExpectedGroups, h, Except.map]⟩
    exact List.Pairwise.sublist (List.dedup_sublist _)
      (List.sorted_insertionSort (· ≤ ·) key.data)
  · intro h
    simp [singleKeyExpectedGroups, h]

theorem single_key_expected_groups_spec_witness :
    ((⟨[3, 1, 3], false⟩ : KeyArray).isDask = false) ∧
    singleKeyExpectedGroups ⟨[3, 1, 3], false⟩ none
      = Except.ok (npUnique ([3, 1, 3] : List ℤ)) :=
  ⟨rfl, ((single_key_expected_groups_spec ⟨[3, 1, 3], false⟩).1 rfl).1⟩

/-! Embedding of `rechunk_to_group_boundaries`. -/

/-- A chunked array as `rechunk_to_group_boundaries` sees it: per-dimension
partition sizes (`array.chunks[axis]`, keyed here by dimension name) and its
underlying values (untouched by rechunking). -/
structure DaskArray where
  chunks : String → List ℕ
  values : List ℤ

/-- Model of `array.chunk({dim: newchunks})`: re-partition along exactly the
one named dimension, leaving all other dimensions and the values intact. -/
def DaskArray.chunk (a : DaskArray) (dim : String) (newchunks : List ℕ) :
    DaskArray :=
  { a with chunks := fun d => if d = dim then newchunks else a.chunks d }

/-- `rechunk_to_group_boundaries(array, dim, labels)`. -/
def rechunk_to_group_boundaries (array : DaskArray) (dim : String)
    (labels : List ℕ) : DaskArray :=
  let chunks := array.chunks dim
  let newchunks := _get_optimal_chunks_for_groups chunks labels
  if newchunks = chunks then array
  else array.chunk dim newchunks

/-- Unfolding equation for `rechunk_to_group_boundaries`. -/
lemma rechunk_def (array : DaskArray) (dim : String) (labels : List ℕ) :
    rechunk_to_group_boundaries array dim labels =
      if _get_optimal_chunks_for_groups (array.chunks dim) labels
          = array.chunks dim
      then array
      else array.chunk dim
        (_get_optimal_chunks_for_groups (array.chunks dim) labels) := rfl

/-- C9: `rechunk_to_group_boundaries` returns the array unchanged when the
recomputed partitioning equals the current one; otherwise the result has the
new partitioning along that dimension only, with all other dimensions'
partitioning and the underlying values untouched. -/
theorem rechunk_noop_or_single_dim (array : DaskArray) (dim : String)
    (labels : List ℕ) :
    (_get_optimal_chunks_for_groups (array.chunks dim) labels
        = array.chunks dim →
      rechunk_to_group_boundaries array dim labels = array) ∧
    (_get_optimal_chunks_for_groups (array.chunks dim) labels
        ≠ array.chunks dim →
      (rechunk_to_group_boundaries array dim labels).values = array.values ∧
      (rechunk_to_group_boundaries array dim labels).chunks dim
        = _get_optimal_chunks_for_groups (array.chunks dim) labels ∧
      ∀ d : String, d ≠ dim →
        (rechunk_to_group_boundaries array dim labels).chunks d
          = array.chunks d) := by
  constructor
  · intro h
    rw [rechunk_def, if_pos h]
  · intro h
    rw [rechunk_def, if_neg h]
    refine ⟨rfl, ?_, ?_⟩
    · simp [DaskArray.chunk]
    · intro d hd
      simp [DaskArray.chunk, hd]

/-- A concrete two-dimensional chunked array used to witness C9. -/
def sampleArray : DaskArray :=
  { chunks := fun d => if d = "time" then [4, 3, 2] else [5]
    values := [0, 1, 2, 3, 4, 5, 6, 7, 8] }

theorem rechunk_noop_or_single_dim_witness :
    (_get_optimal_chunks_for_groups (sampleArray.chunks "time")
        [0, 0, 0, 1, 1, 1, 1, 2, 2] ≠ sampleArray.chunks "time") ∧
    ((rechunk_to_group_boundaries sampleArray "time"
        [0, 0, 0, 1, 1, 1, 1, 2, 2]).values = sampleArray.values ∧
      (rechunk_to_group_boundaries sampleArray "time"
          [0, 0, 0, 1, 1, 1, 1, 2, 2]).chunks "time"
        = _get_optimal_chunks_for_groups (sampleArray.chunks "time")
            [0, 0, 0, 1, 1, 1, 1, 2, 2]) :=
  ⟨by decide,
    ((rechunk_noop_or_single_dim sampleArray "time"
        [0, 0, 0, 1, 1, 1, 1, 2, 2]).2 (by decide)).1,
    ((rechunk_noop_or_single_dim sampleArray "time"
        [0, 0, 0, 1, 1, 1, 1, 2, 2]).2 (by decide)).2.1⟩

/-! Embedding of the label construction in `resample_reduce`. -/

/-- One entry of `resampler._group_indices`: a Python `slice(start, stop)`
with a possibly absent stop (resolved to the dimension size in the source). -/
structure Slicer where
  start : ℕ
  stop : Option ℕ

/-- The loop body of `resample_reduce` made recursive over the enumeration
index `k`: for each slicer, `idx * np.ones(stop - slicer.start)` with
`stop = slicer.stop` or the dimension size when absent. -/
def resampleLabelsFrom (k : ℕ) : List Slicer → ℕ → List ℕ
  | [], _ => []
  | s :: rest, size =>
      List.replicate (s.stop.getD size - s.start) k
        ++ resampleLabelsFrom (k + 1) rest size

/-- The label array built by `resample_reduce`:
`np.hstack([idx * np.ones(stop - s.start) for idx, s in enumerate(group_indices)])`. -/
def resampleLabels (groupIndices : List Slicer) (size : ℕ) : List ℕ :=
  (groupIndices.enum.map
    (fun p => List.replicate (p.2.stop.getD size - p.2.start) p.1)).flatten

lemma resampleLabels_enumFrom (gs : List Slicer) (size k : ℕ) :
    ((List.enumFrom k gs).map
      (fun p => List.replicate (p.2.stop.getD size - p.2.start) p.1)).flatten
    = resampleLabelsFrom k gs size := by
  induction gs generalizing k with
  | nil => rfl
  | cons s rest ih =>
    simp only [List.enumFrom_cons, List.map_cons, List.flatten_cons,
      resampleLabelsFrom]
    rw [ih]

lemma resampleLabels_eq_from (gs : List Slicer) (size : ℕ) :
    resampleLabels gs size = resampleLabelsFrom 0 gs size := by
  unfold resampleLabels
  rw [List.enum]
  exact resampleLabels_enumFrom gs size 0

lemma mem_resampleLabelsFrom {gs : List Slicer} {size k v : ℕ}
    (hv : v ∈ resampleLabelsFrom k gs size) : k ≤ v := by
  induction gs generalizing k with
  | nil => cases hv
  | cons s rest ih =>
    rcases List.mem_append.mp hv with h | h
    · exact le_of_eq (List.eq_of_mem_replicate h).symm
    · have := ih h
      omega

lemma sorted_resampleLabelsFrom (gs : List Slicer) (size k : ℕ) :
    (resampleLabelsFrom k gs size).Sorted (· ≤ ·) := by
  induction gs generalizing k with
  | nil => simp [resampleLabelsFrom]
  | cons s rest ih =>
    simp only [resampleLabelsFrom, List.Sorted, List.pairwise_append]
    refine ⟨List.pairwise_replicate.mpr (Or.inr (le_refl k)), ih (k + 1), ?_⟩
    intro a ha b hb
    have h1 := List.eq_of_mem_replicate ha
    have h2 := mem_resampleLabelsFrom hb
    omega

/-- `resampler._group_indices` tile the grouping dimension: each slice
starts where the previous one stopped, the first starts at `off`, and the
final stop (possibly absent, then resolved to `size`) equals `size`.  This
is the shape of the group indices xarray's resampler produces; it is the
precondition under which the constructed labels cover the dimension. -/
inductive Tiles (size : ℕ) : ℕ → List Slicer → Prop where
  | last (s : Slicer) (off : ℕ) : s.start = off → off ≤ size →
      s.stop.getD size = size → Tiles size off [s]
  | cons (s : Slicer) (off : ℕ) (rest : List Slicer) : s.start = off →
      off ≤ s.stop.getD size → Tiles size (s.stop.getD size) rest →
      Tiles size off (s :: rest)

lemma Tiles.le {size off : ℕ} {gs : List Slicer} (h : Tiles size off gs) :
    off ≤ size := by
  induction h with
  | last s o h1 h2 h3 => exact h2
  | cons s o rest h1 h2 h3 ih => omega

lemma length_resampleLabelsFrom {size off : ℕ} {gs : List Slicer}
    (h : Tiles size off gs) (k : ℕ) :
    (resampleLabelsFrom k gs size).length = size - off := by
  induction h generalizing k with
  | last s o h1 h2 h3 =>
    simp [resampleLabelsFrom, h1, h3]
  | cons s o rest h1 h2 h3 ih =>
    have hle := h3.le
    simp only [resampleLabelsFrom, List.length_append, List.length_replicate,
      ih (k + 1), h1]
    omega

lemma count_resampleLabelsFrom {size : ℕ} {gs : List Slicer} (k : ℕ) :
    ∀ i < gs.length,
      (resampleLabelsFrom k gs size).count (k + i)
        = (gs.getD i (Slicer.mk 0 none)).stop.getD size
          - (gs.getD i (Slicer.mk 0 none)).start := by
  induction gs generalizing k with
  | nil => intro i hi; simp at hi
  | cons s rest ih =>
    intro i hi
    cases i with
    | zero =>
      simp only [resampleLabelsFrom, List.count_append, List.getD_cons_zero]
      have h1 : (List.replicate (s.stop.getD size - s.start) k).count (k + 0)
          = s.stop.getD size - s.start := by
        rw [List.count_replicate]
        simp
      have h2 : (resampleLabelsFrom (k + 1) rest size).count (k + 0) = 0 := by
        rw [List.count_eq_zero]
        intro hmem
        have := mem_resampleLabelsFrom hmem
        omega
      rw [h1, h2]
      omega
    | succ j =>
      simp only [resampleLabelsFrom, List.count_append, List.getD_cons_succ]
      have h1 : (List.replicate (s.stop.getD size - s.start) k).count
          (k + (j + 1)) = 0 := by
        rw [List.count_replicate]
        have : (k == k + (j + 1)) = false := by
          simp only [beq_eq_false_iff_ne, ne_eq]
          omega
        rw [this]
        rfl
      have h2 := ih (k + 1) j (by simpa using hi)
      rw [h1]
      have harg : k + (j + 1) = k + 1 + j := by omega
      rw [harg, h2]
      omega

/-- C10: under the resampler's tiling precondition, the label array built by
`resample_reduce` has length equal to the grouping dimension's size, is
monotonically non-decreasing, and assigns to bin `i` exactly
`stop_i - start_i` occurrences of the value `i` (a contiguous run, by
monotonicity) — establishing the precondition of
`_get_optimal_chunks_for_groups`. -/
theorem resample_labels_monotone_cover (gs : List Slicer) (size : ℕ)
    (ht : Tiles size 0 gs) :
    (resampleLabels gs size).length = size ∧
    (resampleLabels gs size).Sorted (· ≤ ·) ∧
    ∀ i < gs.length,
      (resampleLabels gs size).count i
        = (gs.getD i (Slicer.mk 0 none)).stop.getD size
          - (gs.getD i (Slicer.mk 0 none)).start := by
  rw [resampleLabels_eq_from]
  refine ⟨?_, sorted_resampleLabelsFrom gs size 0, ?_⟩
  · rw [length_resampleLabelsFrom ht 0]
    omega
  · intro i hi
    have := @count_resampleLabelsFrom size gs 0 i hi
    simpa using this

theorem resample_labels_monotone_cover_witness :
    Tiles 5 0 [⟨0, some 2⟩, ⟨2, some 3⟩, ⟨3, none⟩] ∧
    ((resampleLabels [⟨0, some 2⟩, ⟨2, some 3⟩, ⟨3, none⟩] 5).length = 5 ∧
      (resampleLabels [⟨0, some 2⟩, ⟨2, some 3⟩, ⟨3, none⟩] 5).Sorted (· ≤ ·)) :=
  have ht : Tiles 5 0 [⟨0, some 2⟩, ⟨2, some 3⟩, ⟨3, none⟩] :=
    Tiles.cons _ 0 _ rfl (by decide)
      (Tiles.cons _ 2 _ rfl (by decide)
        (Tiles.last _ 3 rfl (by decide) rfl))
  ⟨ht, (resample_labels_monotone_cover _ 5 ht).1,
    (resample_labels_monotone_cover _ 5 ht).2.1⟩

/-! Multi-key factorization and densification (the `len(by) > 1` path of
`xarray_reduce`'s `wrapper`).  `core.factorize_` and `core.reindex_` live in
a different module of the repository, so their behaviour is modelled from
the spec; the final `reshape` is in this module and follows numpy's
row-major (C order) semantics. -/

/-- Modelled from the spec: the combined GroupCode of `core.factorize_`
(missing from this module) is the mixed-radix linearization
`code = idx_0 + idx_1*shape_0 + idx_2*shape_0*shape_1 + ...`. -/
def specGroupCode : List ℕ → List ℕ → ℕ
  | _, [] => 0
  | shape, i :: is => i + shape.headD 1 * specGroupCode shape.tail is

/-- Modelled from the spec: densification as performed by `core.reindex_`
(missing from this module) on the flattened code axis: a dense buffer of
`size` cells filled with `fill`, each `(code, value)` pair scattered at the
position given by its code. -/
def densify (pairs : List (ℕ × ℤ)) (fill : ℤ) (size : ℕ) : List ℤ :=
  (List.range size).map (fun k =>
    match pairs.find? (fun p => p.1 == k) with
    | some p => p.2
    | none => fill)

/-- Row-major (numpy C order) reshape of the flat densified buffer into a
`rows × cols` grid, as done by
`reindexed.reshape(result.shape[:-1] + group_shape)` in the source. -/
def reshape2 (flat : List ℤ) (rows cols : ℕ) : List (List ℤ) :=
  (List.range rows).map (fun i =>
    (List.range cols).map (fun j => flat.getD (i * cols + j) 0))

/-- Cell access in a 2-D grid. -/
def gridAt (grid : List (List ℤ)) (i j : ℕ) : ℤ := (grid.getD i []).getD j 0

/-- The row-major linearization `code = idx_0*shape_1 + idx_1` — the
linearization that the row-major reshape actually inverts. -/
def rowMajorCode (shape idx : List ℕ) : ℕ :=
  specGroupCode shape.reverse idx.reverse

/-- C4 (counterexample): with shape (2,3), the spec's formula gives the pair
(1,0) code 1, but densifying a partial result carrying that code and
reshaping row-major puts its value at grid cell (0,1), not (1,0): the
spec-stated linearization is column-major, and the densification pipeline
does not invert it. -/
theorem spec_code_densify_counterexample :
    specGroupCode [2, 3] [1, 0] = 1 ∧
    gridAt (reshape2 (densify [(specGroupCode [2, 3] [1, 0], 7)] (-1) 6) 2 3)
      1 0 = -1 ∧
    gridAt (reshape2 (densify [(specGroupCode [2, 3] [1, 0], 7)] (-1) 6) 2 3)
      0 1 = 7 := by
  decide

/-- C4 (amended): for shape (2,3), the spec's formula enumerates the (i,j)
pairs bijectively but in column-major order; the densify-then-reshape
pipeline inverts the row-major linearization `code = idx_0*shape_1 + idx_1`;
and densifying a partial result covering exactly codes {1,4} with fill −1
yields a 2×3 grid whose only non-fill cells are (0,1) and (1,1). -/
theorem code_densify_amended :
    ((List.range 6).map (fun k => specGroupCode [2, 3] [k % 2, k / 2])
      = List.range 6) ∧
    ((List.range 6).map (fun k => rowMajorCode [2, 3] [k / 3, k % 3])
      = List.range 6) ∧
    (reshape2 (densify ((List.range 6).map
          (fun k => (rowMajorCode [2, 3] [k / 3, k % 3],
            ((10 * (k / 3) + k % 3 : ℕ) : ℤ)))) (-1) 6) 2 3
      = [[0, 1, 2], [10, 11, 12]]) ∧
    (reshape2 (densify [(1, 7), (4, 8)] (-1) 6) 2 3
      = [[-1, 7, -1], [-1, 8, -1]]) := by
  decide

end DaskGroupby
